import Mathlib

/-!
# A model of the worker-thread pool of `threadpool/poolcpp.cc`

The class `threadpool` is embedded as a record of its data members together
with a transition function whose steps are the atomic sections of the source:
the blocks run under `_lock`, the single operations on the atomics `_run` and
`_idlThrNum`, and the invocation of a dequeued task.  The file is built for
the default configuration, in which `THREADPOOL_AUTO_GROW` is not defined.

A worker blocked in `_task_cv.wait(lock, pred)` is a worker whose fetch step
is not enabled while `pred` is false; since a condition variable may wake
spuriously, the step is enabled whenever `pred` holds, so `notify_one` and
`notify_all` need no state of their own.
-/

namespace ThreadPool

/-- The macro `THREADPOOL_MAX_NUM`. -/
def THREADPOOL_MAX_NUM : Nat := 16

/-- What calling a callable produces: it returns a value or it raises. -/
inductive Outcome (V : Type) where
  | returned (v : V)
  | raised (what : String)

/-- The shared state behind a `packaged_task` and the `future` obtained from
it: nothing stored yet, or the stored outcome of the call. -/
inductive Cell (V : Type) where
  | pending
  | ready (o : Outcome V)

/-- An entry of `queue<Task> _tasks` (`Task = function<void()>`).  `packaged h
body` is the lambda `[task]() { (*task)(); }` that `commit` enqueues, where
`task` points to the `packaged_task` built from the bound call `body` and whose
shared state is cell `h`; `plain body` is a callable handed to `commit2`,
stored as it is. -/
inductive Task (V : Type) where
  | packaged (h : Nat) (body : Unit → Outcome V)
  | plain (body : Unit → Outcome Unit)

/-- Where a worker thread stands in the function passed to
`_pool.emplace_back`: at the wait on `_task_cv` (lines 131-137), holding a
dequeued task that it is calling (line 144), past the call and before
`_idlThrNum++` (lines 151-154), or returned from the thread function
(line 139). -/
inductive Worker (V : Type) where
  | waiting
  | holding (t : Task V)
  | finished
  | exited

/-- The data members of `class threadpool`.  `_pool` records for every thread
where it stands; `_lock` and `_task_cv` are represented by the atomicity and
the enabledness of the steps. -/
structure threadpool (V : Type) where
  _initSize : Nat
  _pool : List (Worker V)
  _tasks : List (Task V)
  _run : Bool
  _idlThrNum : Int

/-- The member function `idlCount`. -/
def threadpool.idlCount {V : Type} (p : threadpool V) : Int := p._idlThrNum

/-- The member function `thrCount`. -/
def threadpool.thrCount {V : Type} (p : threadpool V) : Int := (p._pool.length : Int)

/-- The loop of `addThread` run on its own: while `_pool.size()` is below
`THREADPOOL_MAX_NUM` and `size > 0`, start a worker (it begins at its wait),
increment `_idlThrNum`, and decrement `size`. -/
def threadpool.addThread {V : Type} (p : threadpool V) : Nat → threadpool V
  | 0 => p
  | size + 1 =>
    if p._pool.length < THREADPOOL_MAX_NUM then
      threadpool.addThread
        { p with _pool := p._pool ++ [Worker.waiting], _idlThrNum := p._idlThrNum + 1 } size
    else p

/-- The members as the default member initialisers and the first statement of
the constructor leave them: `_run{true}`, `_idlThrNum{0}`, empty `_pool` and
`_tasks`, `_initSize = size`. -/
def threadpool.fresh (V : Type) (size : Nat) : threadpool V :=
  { _initSize := size, _pool := [], _tasks := [], _run := true, _idlThrNum := 0 }

/-- The constructor `threadpool(unsigned short size)` run on its own. -/
def threadpool.construct (V : Type) (size : Nat) : threadpool V :=
  (threadpool.fresh V size).addThread size

/-- Progress of the constructor through the loop of `addThread(size)`: at the
loop test with `size` iterations still requested, between `emplace_back` and
the `_idlThrNum++` of the same iteration, or returned. -/
inductive Ctor where
  | loop (size : Nat)
  | spawned (size : Nat)
  | done

/-- Progress of the destructor: not called, inside the loop that joins
`_pool[k]`, or returned. -/
inductive Dtor where
  | idle
  | joining (k : Nat)
  | done

/-- The pool together with what surrounds it: the shared states of the futures
handed out (a handle is an index into `futures`), the progress of constructor
and destructor, the submissions that have passed the test of `_run` and have
not yet taken `_lock`, whether an exception has left a thread function
(`std::terminate`), and three history lists used only to state properties:
the tasks in the order they were enqueued, dequeued, and completed. -/
structure Machine (V : Type) where
  pool : threadpool V
  futures : List (Cell V)
  ctor : Ctor
  dtor : Dtor
  inflight : List (Task V)
  terminated : Bool
  enq : List (Task V)
  deq : List (Task V)
  fin : List (Task V)

/-- The state in which the body of `threadpool(size)` reaches `addThread`. -/
def Machine.init (V : Type) (size : Nat) : Machine V :=
  { pool := threadpool.fresh V size, futures := [], ctor := Ctor.loop size, dtor := Dtor.idle,
    inflight := [], terminated := false, enq := [], deq := [], fin := [] }

/-- Lines 53-55 of `commit`: `make_shared<packaged_task>` of the bound call and
`get_future`; a new pending shared state is allocated and the queue entry that
will invoke the packaged task is built. -/
def package {V : Type} (m : Machine V) (body : Unit → Outcome V) : Nat × Task V × Machine V :=
  (m.futures.length, Task.packaged m.futures.length body,
    { m with futures := m.futures ++ [Cell.pending] })

/-- The block under `lock_guard` in `commit` and `commit2`: `_tasks.emplace`
puts the task at the back of the queue. -/
def emplace {V : Type} (m : Machine V) (t : Task V) : Machine V :=
  { m with pool := { m.pool with _tasks := m.pool._tasks ++ [t] }, enq := m.enq ++ [t] }

/-- The member function `commit(f, args...)` executed without interruption.
The first component is the returned handle, or the message of the
`runtime_error` thrown; the second is the state the call leaves. -/
def commit {V A : Type} (m : Machine V) (f : A → Outcome V) (args : A) :
    Except String Nat × Machine V :=
  if !m.pool._run then
    (Except.error "commit on ThreadPool is stopped.", m)
  else
    match package m (fun _ => f args) with
    | (h, task, m1) => (Except.ok h, emplace m1 task)

/-- The member function `commit2(task)` executed without interruption. -/
def commit2 {V : Type} (m : Machine V) (task : Unit → Outcome Unit) :
    Except String Unit × Machine V :=
  if !m.pool._run then
    (Except.ok (), m)
  else
    (Except.ok (), emplace m (Task.plain task))

/-- A callable object as `map_container` receives it: the state it carries
(what a lambda has captured), what calling it in a given state yields, and the
state that a move construction from it leaves behind in it. -/
structure Callable (S T V : Type) where
  state : S
  call : S → T → Outcome V
  moved : S → S

/-- A callable that carries no state, such as a function or a lambda without
captures. -/
def Callable.of {T V : Type} (g : T → Outcome V) : Callable Unit T V :=
  { state := (), call := fun _ => g, moved := fun s => s }

/-- What calling the object as it is now yields. -/
def Callable.invoke {S T V : Type} (f : Callable S T V) (v : T) : Outcome V :=
  f.call f.state v

/-- The object after `std::bind(forward<F>(f), ...)` in `commit` has built its
own copy from it.  When `map_container` was instantiated with an lvalue (`F`
is a reference type, `rvalue = false`) the copy is made by copy construction
and the object is as before; when it was instantiated with an rvalue the copy
is made by move construction and the object is left moved from. -/
def Callable.forwarded {S T V : Type} (f : Callable S T V) (rvalue : Bool) : Callable S T V :=
  if rvalue then { f with state := f.moved f.state } else f

/-- The loop of `map_container`: `res.push_back(commit(forward<F>(f),
forward<T>(v)))` for every `v` of the container in order; `commit` binds the
object as it is at that iteration, and the same object, as the call left it,
is forwarded again at the next one.  An exception of `commit` leaves the
loop. -/
def map_container.loop {S V T : Type} (rvalue : Bool) :
    Machine V → List Nat → Callable S T V → List T → Except String (List Nat) × Machine V
  | m, res, _, [] => (Except.ok res, m)
  | m, res, f, v :: c =>
    match commit m f.invoke v with
    | (Except.error e, m1) => (Except.error e, m1)
    | (Except.ok h, m1) => map_container.loop rvalue m1 (res ++ [h]) (f.forwarded rvalue) c

/-- The member function `map_container(f, c)`; the container (`vector`, `deque`
or `list`) is the list of its elements in iteration order, and `rvalue` tells
whether the callable was passed as an rvalue. -/
def map_container {S V T : Type} (m : Machine V) (f : Callable S T V) (rvalue : Bool)
    (c : List T) : Except String (List Nat) × Machine V :=
  map_container.loop rvalue m [] f c

/-- Calling a queue entry, `task()` at line 144.  A packaged task stores the
outcome of its bound call, value or exception, in its shared state and returns
normally; a plain callable stores nothing, and an exception it raises
propagates to the caller, which is reported as `none`.  Every wrapper is
queued once and dequeued once, so a packaged task is invoked once. -/
def invoke {V : Type} (t : Task V) (futures : List (Cell V)) : Option (List (Cell V)) :=
  match t with
  | Task.packaged h body => some (futures.set h (Cell.ready (body ())))
  | Task.plain body =>
    match body () with
    | Outcome.returned _ => some futures
    | Outcome.raised _ => none

/-- Replace the control state of worker `i`. -/
def setWorker {V : Type} (m : Machine V) (i : Nat) (w : Worker V) : Machine V :=
  { m with pool := { m.pool with _pool := m.pool._pool.set i w } }

/-- Lines 134-143 of the worker function, one critical section under `_lock`:
blocked while `!_run || !_tasks.empty()` is false; return when `!_run` and the
queue is empty; otherwise decrement `_idlThrNum`, move the front of the queue
into `task` and pop it. -/
def fetch {V : Type} (m : Machine V) (i : Nat) : Option (Machine V) :=
  match m.pool._pool[i]? with
  | some Worker.waiting =>
    if !(!m.pool._run || !m.pool._tasks.isEmpty) then none
    else if !m.pool._run && m.pool._tasks.isEmpty then some (setWorker m i Worker.exited)
    else
      match m.pool._tasks with
      | [] => none
      | t :: rest =>
        some { m with
          pool := { m.pool with
            _pool := m.pool._pool.set i (Worker.holding t)
            _tasks := rest
            _idlThrNum := m.pool._idlThrNum - 1 }
          deq := m.deq ++ [t] }
  | _ => none

/-- Line 144, `task()`: the worker calls the task it holds.  When the call
returns the worker is past it; when an exception leaves the call it leaves the
thread function as well and the process is terminated. -/
def exec {V : Type} (m : Machine V) (i : Nat) : Option (Machine V) :=
  match m.pool._pool[i]? with
  | some (Worker.holding t) =>
    match invoke t m.futures with
    | some futures => some { setWorker m i Worker.finished with futures := futures, fin := m.fin ++ [t] }
    | none => some { m with terminated := true }
  | _ => none

/-- Lines 151-154: `_idlThrNum++` under `_lock`, then back to the top of the
loop. -/
def back {V : Type} (m : Machine V) (i : Nat) : Option (Machine V) :=
  match m.pool._pool[i]? with
  | some Worker.finished =>
    some { m with
      pool := { m.pool with
        _pool := m.pool._pool.set i Worker.waiting
        _idlThrNum := m.pool._idlThrNum + 1 } }
  | _ => none

/-- The atomic steps of the system. -/
inductive Action (V : Type) where
  | ctorSpawn
  | ctorCount
  | ctorReturn
  | commit (body : Unit → Outcome V)
  | commit2 (body : Unit → Outcome Unit)
  | enqueue (k : Nat)
  | fetch (i : Nat)
  | exec (i : Nat)
  | back (i : Nat)
  | stop
  | join
  | dtorReturn

/-- One atomic step; `none` when the step is not enabled in the state.

* `ctorSpawn`, `ctorCount`, `ctorReturn`: the loop of `addThread` called by the
  constructor: test and `emplace_back` (the new thread starts at its wait),
  `_idlThrNum++` and `--size`, and leaving the loop.
* `commit body`, `commit2 body`: the test of `_run` at the start of a
  submission (and, for `commit`, the construction of the packaged task).  With
  `_run` false the call ends here, by `throw` or `return`, and the state is
  unchanged.  A submission needs the constructed pool, so it is enabled once
  the constructor has returned.
* `enqueue k`: submission number `k` in flight takes `_lock` and emplaces.
* `fetch i`, `exec i`, `back i`: the three sections of worker `i`.
* `stop`: `_run = false` in the destructor; `join`: `thread.join()` returns for
  the next thread once it has left its function; `dtorReturn`: the loop over
  `_pool` is over.
* Nothing steps after the process has been terminated. -/
def step {V : Type} (m : Machine V) (a : Action V) : Option (Machine V) :=
  if m.terminated then none
  else
    match a with
    | Action.ctorSpawn =>
      match m.ctor with
      | Ctor.loop size =>
        if m.pool._pool.length < THREADPOOL_MAX_NUM ∧ size > 0 then
          some { m with
            pool := { m.pool with _pool := m.pool._pool ++ [Worker.waiting] }
            ctor := Ctor.spawned size }
        else none
      | _ => none
    | Action.ctorCount =>
      match m.ctor with
      | Ctor.spawned size =>
        some { m with
          pool := { m.pool with _idlThrNum := m.pool._idlThrNum + 1 }
          ctor := Ctor.loop (size - 1) }
      | _ => none
    | Action.ctorReturn =>
      match m.ctor with
      | Ctor.loop size =>
        if m.pool._pool.length < THREADPOOL_MAX_NUM ∧ size > 0 then none
        else some { m with ctor := Ctor.done }
      | _ => none
    | Action.commit body =>
      match m.ctor with
      | Ctor.done =>
        if !m.pool._run then some m
        else
          match package m body with
          | (_, task, m1) => some { m1 with inflight := m1.inflight ++ [task] }
      | _ => none
    | Action.commit2 body =>
      match m.ctor with
      | Ctor.done =>
        if !m.pool._run then some m
        else some { m with inflight := m.inflight ++ [Task.plain body] }
      | _ => none
    | Action.enqueue k =>
      match m.inflight[k]? with
      | some t => some (emplace { m with inflight := m.inflight.eraseIdx k } t)
      | none => none
    | Action.fetch i => fetch m i
    | Action.exec i => exec m i
    | Action.back i => back m i
    | Action.stop =>
      match m.ctor, m.dtor with
      | Ctor.done, Dtor.idle =>
        some { m with pool := { m.pool with _run := false }, dtor := Dtor.joining 0 }
      | _, _ => none
    | Action.join =>
      match m.dtor with
      | Dtor.joining k =>
        match m.pool._pool[k]? with
        | some Worker.exited => some { m with dtor := Dtor.joining (k + 1) }
        | _ => none
      | _ => none
    | Action.dtorReturn =>
      match m.dtor with
      | Dtor.joining k =>
        if k < m.pool._pool.length then none else some { m with dtor := Dtor.done }
      | _ => none

/-- Run a sequence of steps; `none` as soon as one of them is not enabled. -/
def steps {V : Type} (m : Machine V) : List (Action V) → Option (Machine V)
  | [] => some m
  | a :: as =>
    match step m a with
    | some m1 => steps m1 as
    | none => none

/-- The states the system can be in: those a sequence of steps reaches from
the start of a constructor call. -/
def Reachable {V : Type} (m : Machine V) : Prop :=
  ∃ (size : Nat) (acts : List (Action V)), steps (Machine.init V size) acts = some m

/-- The tasks held by the workers of a pool, in pool order. -/
def held {V : Type} : List (Worker V) → List (Task V)
  | [] => []
  | Worker.holding t :: ws => t :: held ws
  | _ :: ws => held ws

/-- What a worker contributes to `_idlThrNum`: one while it is not between its
decrement and its increment. -/
def credit {V : Type} : Worker V → Int
  | Worker.holding _ => 0
  | Worker.finished => 0
  | _ => 1

/-- Sum of the contributions of the workers of a pool. -/
def credits {V : Type} : List (Worker V) → Int
  | [] => 0
  | w :: ws => credit w + credits ws

/-- The number of started workers whose `_idlThrNum++` in `addThread` is still
to come. -/
def Ctor.uncounted : Ctor → Int
  | Ctor.spawned _ => 1
  | _ => 0

/-- No worker is between dequeuing a task and re-incrementing the counter. -/
def Quiescent {V : Type} (m : Machine V) : Prop :=
  m.ctor = Ctor.done ∧ ∀ w ∈ m.pool._pool, credit w = 1

/-- Every worker has left its thread function. -/
def AllExited {V : Type} (m : Machine V) : Prop :=
  ∀ w ∈ m.pool._pool, w = Worker.exited

/-- The transition relation of `step`, one constructor for every branch of it
that yields a state. -/
inductive Step {V : Type} : Machine V → Action V → Machine V → Prop where
  | ctorSpawn (m : Machine V) (size : Nat) (alive : m.terminated = false)
      (hc : m.ctor = Ctor.loop size) (hl : m.pool._pool.length < THREADPOOL_MAX_NUM)
      (hs : size > 0) :
      Step m Action.ctorSpawn
        { m with
          pool := { m.pool with _pool := m.pool._pool ++ [Worker.waiting] }
          ctor := Ctor.spawned size }
  | ctorCount (m : Machine V) (size : Nat) (alive : m.terminated = false)
      (hc : m.ctor = Ctor.spawned size) :
      Step m Action.ctorCount
        { m with
          pool := { m.pool with _idlThrNum := m.pool._idlThrNum + 1 }
          ctor := Ctor.loop (size - 1) }
  | ctorReturn (m : Machine V) (size : Nat) (alive : m.terminated = false)
      (hc : m.ctor = Ctor.loop size)
      (hl : ¬ (m.pool._pool.length < THREADPOOL_MAX_NUM ∧ size > 0)) :
      Step m Action.ctorReturn { m with ctor := Ctor.done }
  | commitStopped (m : Machine V) (body : Unit → Outcome V) (alive : m.terminated = false)
      (hc : m.ctor = Ctor.done) (hr : m.pool._run = false) :
      Step m (Action.commit body) m
  | commitBegin (m : Machine V) (body : Unit → Outcome V) (alive : m.terminated = false)
      (hc : m.ctor = Ctor.done) (hr : m.pool._run = true) :
      Step m (Action.commit body)
        { m with
          futures := m.futures ++ [Cell.pending]
          inflight := m.inflight ++ [Task.packaged m.futures.length body] }
  | commit2Stopped (m : Machine V) (body : Unit → Outcome Unit) (alive : m.terminated = false)
      (hc : m.ctor = Ctor.done) (hr : m.pool._run = false) :
      Step m (Action.commit2 body) m
  | commit2Begin (m : Machine V) (body : Unit → Outcome Unit) (alive : m.terminated = false)
      (hc : m.ctor = Ctor.done) (hr : m.pool._run = true) :
      Step m (Action.commit2 body) { m with inflight := m.inflight ++ [Task.plain body] }
  | enqueue (m : Machine V) (k : Nat) (t : Task V) (alive : m.terminated = false)
      (hk : m.inflight[k]? = some t) :
      Step m (Action.enqueue k) (emplace { m with inflight := m.inflight.eraseIdx k } t)
  | fetchExit (m : Machine V) (i : Nat) (alive : m.terminated = false)
      (hw : m.pool._pool[i]? = some Worker.waiting) (hr : m.pool._run = false)
      (hq : m.pool._tasks = []) :
      Step m (Action.fetch i) (setWorker m i Worker.exited)
  | fetchPop (m : Machine V) (i : Nat) (t : Task V) (rest : List (Task V))
      (alive : m.terminated = false)
      (hw : m.pool._pool[i]? = some Worker.waiting) (hq : m.pool._tasks = t :: rest) :
      Step m (Action.fetch i)
        { m with
          pool := { m.pool with
            _pool := m.pool._pool.set i (Worker.holding t)
            _tasks := rest
            _idlThrNum := m.pool._idlThrNum - 1 }
          deq := m.deq ++ [t] }
  | execReturn (m : Machine V) (i : Nat) (t : Task V) (futures : List (Cell V))
      (alive : m.terminated = false)
      (hw : m.pool._pool[i]? = some (Worker.holding t))
      (hi : invoke t m.futures = some futures) :
      Step m (Action.exec i)
        { setWorker m i Worker.finished with futures := futures, fin := m.fin ++ [t] }
  | execThrow (m : Machine V) (i : Nat) (t : Task V) (alive : m.terminated = false)
      (hw : m.pool._pool[i]? = some (Worker.holding t))
      (hi : invoke t m.futures = none) :
      Step m (Action.exec i) { m with terminated := true }
  | back (m : Machine V) (i : Nat) (alive : m.terminated = false)
      (hw : m.pool._pool[i]? = some Worker.finished) :
      Step m (Action.back i)
        { m with
          pool := { m.pool with
            _pool := m.pool._pool.set i Worker.waiting
            _idlThrNum := m.pool._idlThrNum + 1 } }
  | stop (m : Machine V) (alive : m.terminated = false)
      (hc : m.ctor = Ctor.done) (hd : m.dtor = Dtor.idle) :
      Step m Action.stop
        { m with pool := { m.pool with _run := false }, dtor := Dtor.joining 0 }
  | join (m : Machine V) (k : Nat) (alive : m.terminated = false)
      (hd : m.dtor = Dtor.joining k) (hw : m.pool._pool[k]? = some Worker.exited) :
      Step m Action.join { m with dtor := Dtor.joining (k + 1) }
  | dtorReturn (m : Machine V) (k : Nat) (alive : m.terminated = false)
      (hd : m.dtor = Dtor.joining k) (hk : ¬ k < m.pool._pool.length) :
      Step m Action.dtorReturn { m with dtor := Dtor.done }

/-- What the loop of `addThread` maintains while the constructor runs: the pool
never exceeds `THREADPOOL_MAX_NUM`, the workers started so far plus those still
to start make up `min _initSize THREADPOOL_MAX_NUM`, and until the constructor
returns the pool is running, nothing has been submitted and every worker is
at its wait. -/
def CtorInv {V : Type} (m : Machine V) : Prop :=
  m.pool._pool.length ≤ THREADPOOL_MAX_NUM ∧
  (match m.ctor with
    | Ctor.loop r =>
      m.pool._pool.length + min r (THREADPOOL_MAX_NUM - m.pool._pool.length)
        = min m.pool._initSize THREADPOOL_MAX_NUM
    | Ctor.spawned r =>
      0 < r ∧ 0 < m.pool._pool.length ∧
      m.pool._pool.length + min (r - 1) (THREADPOOL_MAX_NUM - m.pool._pool.length)
        = min m.pool._initSize THREADPOOL_MAX_NUM
    | Ctor.done => m.pool._pool.length = min m.pool._initSize THREADPOOL_MAX_NUM) ∧
  (m.ctor ≠ Ctor.done →
    m.pool._run = true ∧ m.pool._tasks = [] ∧ m.inflight = [] ∧
    (∀ w ∈ m.pool._pool, w = Worker.waiting) ∧ m.dtor = Dtor.idle)

/-- The counter `_idlThrNum` equals the number of workers that are not between
their decrement and their increment, less the worker just started by
`addThread` whose increment is still to come. -/
def IdleInv {V : Type} (m : Machine V) : Prop :=
  m.pool._idlThrNum = credits m.pool._pool - m.ctor.uncounted

/-- How `_run`, the destructor and the exits of the workers hang together: the
flag is true exactly until the destructor is called, the destructor is called
on a constructed pool, no worker has returned while the flag is true, and the
threads already joined have returned. -/
def StopInv {V : Type} (m : Machine V) : Prop :=
  (m.dtor = Dtor.idle ↔ m.pool._run = true) ∧
  (m.dtor ≠ Dtor.idle → m.ctor = Ctor.done) ∧
  (m.pool._run = true → ∀ w ∈ m.pool._pool, w ≠ Worker.exited) ∧
  (match m.dtor with
    | Dtor.idle => True
    | Dtor.joining k => ∀ j, j < k → m.pool._pool[j]? = some Worker.exited
    | Dtor.done => AllExited m)

/-- The histories and the queue: what was enqueued is what was dequeued followed
by what is queued; what was dequeued is, up to order, what was completed
together with what the workers hold; with one worker the order agrees too. -/
def QueueInv {V : Type} (m : Machine V) : Prop :=
  m.enq = m.deq ++ m.pool._tasks ∧
  m.deq.Perm (m.fin ++ held m.pool._pool) ∧
  (m.pool._pool.length ≤ 1 → m.deq = m.fin ++ held m.pool._pool)

/-- The state in which the constructor `threadpool(size)` has returned and
nothing has been submitted yet. -/
def Machine.ready (V : Type) (size : Nat) : Machine V :=
  { Machine.init V size with pool := threadpool.construct V size, ctor := Ctor.done }

/-- The call `task()` of the worker returns: a packaged task always does, a
plain callable does when it does not raise. -/
def Task.returns {V : Type} : Task V → Bool
  | Task.packaged _ _ => true
  | Task.plain body =>
    match body () with
    | Outcome.returned _ => true
    | Outcome.raised _ => false

/-- The queue entries that the iterations of `map_container` build one after
the other when the first handle is `h`: the entry for an element wraps the call
of the object as it is at that iteration. -/
def wrappers {S V T : Type} (rvalue : Bool) : Callable S T V → Nat → List T → List (Task V)
  | _, _, [] => []
  | f, h, v :: c =>
    Task.packaged h (fun _ => f.invoke v) :: wrappers rvalue (f.forwarded rvalue) (h + 1) c

/-- The callable `[p = std::make_shared<int>(3)](int x) { return (p ? *p : 0) + x; }`:
its state is what `p` points to, if anything; a move construction from it
leaves `p` empty. -/
def sharedCapture : Callable (Option Int) Int Int :=
  { state := some 3
    call := fun p x => Outcome.returned ((match p with | some n => n | none => 0) + x)
    moved := fun _ => none }

theorem fetch_sound {V : Type} {m m1 : Machine V} {i : Nat} (alive : m.terminated = false)
    (h : fetch m i = some m1) : Step m (Action.fetch i) m1 := by
  unfold fetch at h
  split at h
  · rename_i hw
    split at h
    · exact absurd h (by simp)
    · split at h
      · rename_i hx
        cases h
        simp only [Bool.and_eq_true, Bool.not_eq_true', List.isEmpty_iff] at hx
        exact Step.fetchExit m i alive hw hx.1 hx.2
      · split at h
        · exact absurd h (by simp)
        · rename_i t rest hq
          cases h
          exact Step.fetchPop m i t rest alive hw hq
  · exact absurd h (by simp)

theorem exec_sound {V : Type} {m m1 : Machine V} {i : Nat} (alive : m.terminated = false)
    (h : exec m i = some m1) : Step m (Action.exec i) m1 := by
  unfold exec at h
  split at h
  · rename_i t hw
    split at h
    · rename_i futures hi
      cases h
      exact Step.execReturn m i t futures alive hw hi
    · rename_i hi
      cases h
      exact Step.execThrow m i t alive hw hi
  · exact absurd h (by simp)

theorem back_sound {V : Type} {m m1 : Machine V} {i : Nat} (alive : m.terminated = false)
    (h : back m i = some m1) : Step m (Action.back i) m1 := by
  unfold back at h
  split at h
  · rename_i hw
    cases h
    exact Step.back m i alive hw
  · exact absurd h (by simp)

theorem step_sound {V : Type} {m m1 : Machine V} {a : Action V}
    (h : step m a = some m1) : Step m a m1 := by
  unfold step at h
  split at h
  · exact absurd h (by simp)
  · rename_i ht
    have alive : m.terminated = false := by simpa using ht
    cases a with
    | ctorSpawn =>
      simp only at h
      split at h
      · rename_i size hc
        split at h
        · rename_i hg
          cases h
          exact Step.ctorSpawn m size alive hc hg.1 hg.2
        · exact absurd h (by simp)
      · exact absurd h (by simp)
    | ctorCount =>
      simp only at h
      split at h
      · rename_i size hc
        cases h
        exact Step.ctorCount m size alive hc
      · exact absurd h (by simp)
    | ctorReturn =>
      simp only at h
      split at h
      · rename_i size hc
        split at h
        · exact absurd h (by simp)
        · rename_i hg
          cases h
          exact Step.ctorReturn m size alive hc hg
      · exact absurd h (by simp)
    | commit body =>
      simp only at h
      split at h
      · rename_i hc
        split at h
        · rename_i hr
          cases h
          exact Step.commitStopped m body alive hc (by simpa using hr)
        · rename_i hr
          simp only [package] at h
          cases h
          exact Step.commitBegin m body alive hc (by simpa using hr)
      · exact absurd h (by simp)
    | commit2 body =>
      simp only at h
      split at h
      · rename_i hc
        split at h
        · rename_i hr
          cases h
          exact Step.commit2Stopped m body alive hc (by simpa using hr)
        · rename_i hr
          cases h
          exact Step.commit2Begin m body alive hc (by simpa using hr)
      · exact absurd h (by simp)
    | enqueue k =>
      simp only at h
      split at h
      · rename_i t hk
        cases h
        exact Step.enqueue m k t alive hk
      · exact absurd h (by simp)
    | fetch i => exact fetch_sound alive h
    | exec i => exact exec_sound alive h
    | back i => exact back_sound alive h
    | stop =>
      simp only at h
      split at h
      · rename_i hc hd
        cases h
        exact Step.stop m alive hc hd
      · exact absurd h (by simp)
    | join =>
      simp only at h
      split at h
      · rename_i k hd
        split at h
        · rename_i hw
          cases h
          exact Step.join m k alive hd hw
        · exact absurd h (by simp)
      · exact absurd h (by simp)
    | dtorReturn =>
      simp only at h
      split at h
      · rename_i k hd
        split at h
        · exact absurd h (by simp)
        · rename_i hk
          cases h
          exact Step.dtorReturn m k alive hd hk
      · exact absurd h (by simp)

/-- An invariant of the steps that holds when the constructor starts holds in
every reachable state. -/
theorem steps_preserve {V : Type} {P : Machine V → Prop}
    (hstep : ∀ m a m1, P m → Step m a m1 → P m1) :
    ∀ (acts : List (Action V)) (m m1 : Machine V), P m → steps m acts = some m1 → P m1 := by
  intro acts
  induction acts with
  | nil =>
    intro m m1 hm h
    simp only [steps, Option.some.injEq] at h
    exact h ▸ hm
  | cons a as ih =>
    intro m m1 hm h
    unfold steps at h
    split at h
    · rename_i m2 hs
      exact ih m2 m1 (hstep m a m2 hm (step_sound hs)) h
    · exact absurd h (by simp)

theorem reachable_induction {V : Type} {P : Machine V → Prop}
    (h0 : ∀ size, P (Machine.init V size))
    (hstep : ∀ m a m1, P m → Step m a m1 → P m1) :
    ∀ m, Reachable m → P m := by
  rintro m ⟨size, acts, h⟩
  exact steps_preserve hstep acts _ m (h0 size) h

/-! ## Workers of a pool: contributions to the counter and held tasks -/

theorem credits_append {V : Type} (l : List (Worker V)) (w : Worker V) :
    credits (l ++ [w]) = credits l + credit w := by
  induction l with
  | nil => simp [credits]
  | cons x xs ih =>
    have e : credits (x :: xs ++ [w]) = credit x + credits (xs ++ [w]) := rfl
    rw [e, ih]
    simp only [credits]
    ring

theorem credits_set {V : Type} (l : List (Worker V)) (i : Nat) (old new : Worker V)
    (h : l[i]? = some old) :
    credits (l.set i new) = credits l - credit old + credit new := by
  induction l generalizing i with
  | nil => simp at h
  | cons x xs ih =>
    cases i with
    | zero =>
      simp only [List.getElem?_cons_zero, Option.some.injEq] at h
      subst h
      simp only [List.set_cons_zero, credits]
      ring
    | succ j =>
      simp only [List.getElem?_cons_succ] at h
      simp only [List.set_cons_succ, credits, ih j h]
      ring

theorem credit_bounds {V : Type} (w : Worker V) : 0 ≤ credit w ∧ credit w ≤ 1 := by
  cases w <;> simp [credit]

theorem credits_bounds {V : Type} (l : List (Worker V)) :
    0 ≤ credits l ∧ credits l ≤ (l.length : Int) := by
  induction l with
  | nil => simp [credits]
  | cons x xs ih =>
    have hx := credit_bounds x
    simp only [credits, List.length_cons, Nat.cast_add, Nat.cast_one]
    omega

theorem credits_all_one {V : Type} (l : List (Worker V)) (h : ∀ w ∈ l, credit w = 1) :
    credits l = (l.length : Int) := by
  induction l with
  | nil => simp [credits]
  | cons x xs ih =>
    have hx : credit x = 1 := h x (List.mem_cons_self x xs)
    have hxs := ih (fun w hw => h w (List.mem_cons_of_mem x hw))
    simp only [credits, List.length_cons, Nat.cast_add, Nat.cast_one, hx, hxs]
    ring

theorem mem_of_mem_set {V : Type} (l : List (Worker V)) (i : Nat) (new w : Worker V)
    (h : w ∈ l.set i new) : w = new ∨ w ∈ l := by
  induction l generalizing i with
  | nil => simp at h
  | cons x xs ih =>
    cases i with
    | zero =>
      simp only [List.set_cons_zero, List.mem_cons] at h
      rcases h with h | h
      · exact Or.inl h
      · exact Or.inr (List.mem_cons_of_mem x h)
    | succ j =>
      simp only [List.set_cons_succ, List.mem_cons] at h
      rcases h with h | h
      · exact Or.inr (h ▸ List.mem_cons_self x xs)
      · rcases ih j h with h1 | h1
        · exact Or.inl h1
        · exact Or.inr (List.mem_cons_of_mem x h1)

theorem mem_of_getElem {V : Type} (l : List (Worker V)) (i : Nat) (w : Worker V)
    (h : l[i]? = some w) : w ∈ l := by
  induction l generalizing i with
  | nil => simp at h
  | cons x xs ih =>
    cases i with
    | zero =>
      simp only [List.getElem?_cons_zero, Option.some.injEq] at h
      exact h ▸ List.mem_cons_self x xs
    | succ j =>
      simp only [List.getElem?_cons_succ] at h
      exact List.mem_cons_of_mem x (ih j h)

theorem held_append {V : Type} (l : List (Worker V)) (w : Worker V) :
    held (l ++ [w]) = held l ++ held [w] := by
  induction l with
  | nil => simp [held]
  | cons x xs ih => cases x <;> simp [held, ih]

/-- Replacing a worker that holds no task by one that holds no task leaves
the held tasks as they are. -/
theorem held_set_none {V : Type} (l : List (Worker V)) (i : Nat) (old new : Worker V)
    (h : l[i]? = some old) (ho : held [old] = []) (hn : held [new] = []) :
    held (l.set i new) = held l := by
  induction l generalizing i with
  | nil => simp at h
  | cons x xs ih =>
    cases i with
    | zero =>
      simp only [List.getElem?_cons_zero, Option.some.injEq] at h
      subst h
      simp only [List.set_cons_zero]
      cases x <;> cases new <;> simp_all [held]
    | succ j =>
      simp only [List.getElem?_cons_succ] at h
      simp only [List.set_cons_succ]
      cases x <;> simp [held, ih j h]

/-- A worker that held nothing takes task `t`. -/
theorem held_set_take {V : Type} (l : List (Worker V)) (i : Nat) (old : Worker V) (t : Task V)
    (h : l[i]? = some old) (ho : held [old] = []) :
    (held (l.set i (Worker.holding t))).Perm (t :: held l) := by
  induction l generalizing i with
  | nil => simp at h
  | cons x xs ih =>
    cases i with
    | zero =>
      simp only [List.getElem?_cons_zero, Option.some.injEq] at h
      subst h
      simp only [List.set_cons_zero]
      cases x <;> simp_all [held]
    | succ j =>
      simp only [List.getElem?_cons_succ] at h
      simp only [List.set_cons_succ]
      cases x with
      | holding u =>
        simp only [held]
        exact ((ih j h).cons u).trans (List.Perm.swap t u _)
      | waiting => simpa [held] using ih j h
      | finished => simpa [held] using ih j h
      | exited => simpa [held] using ih j h

/-- A worker that held task `t` lets go of it. -/
theorem held_set_drop {V : Type} (l : List (Worker V)) (i : Nat) (new : Worker V) (t : Task V)
    (h : l[i]? = some (Worker.holding t)) (hn : held [new] = []) :
    (held l).Perm (t :: held (l.set i new)) := by
  induction l generalizing i with
  | nil => simp at h
  | cons x xs ih =>
    cases i with
    | zero =>
      simp only [List.getElem?_cons_zero, Option.some.injEq] at h
      subst h
      simp only [List.set_cons_zero]
      cases new <;> simp_all [held]
    | succ j =>
      simp only [List.getElem?_cons_succ] at h
      simp only [List.set_cons_succ]
      cases x with
      | holding u =>
        simp only [held]
        exact ((ih j h).cons u).trans (List.Perm.swap t u _)
      | waiting => simpa [held] using ih j h
      | finished => simpa [held] using ih j h
      | exited => simpa [held] using ih j h

/-! ## Invariants of the reachable states -/

theorem ctorInv_init (V : Type) (size : Nat) : CtorInv (Machine.init V size) := by
  simp [CtorInv, Machine.init, threadpool.fresh, THREADPOOL_MAX_NUM]

theorem ctorInv_step {V : Type} (m : Machine V) (a : Action V) (m1 : Machine V)
    (h : CtorInv m) (hs : Step m a m1) : CtorInv m1 := by
  obtain ⟨hb, hn, he⟩ := h
  cases hs with
  | ctorSpawn size alive hc hl hs =>
    simp only [hc] at hn
    have he1 := he (by simp [hc])
    refine ⟨?_, ?_, ?_⟩
    · simp only [List.length_append, List.length_singleton]; omega
    · simp only [List.length_append, List.length_singleton]
      simp only [THREADPOOL_MAX_NUM] at *
      omega
    · intro _
      refine ⟨he1.1, he1.2.1, he1.2.2.1, ?_, he1.2.2.2.2⟩
      intro w hw
      simp only [List.mem_append, List.mem_singleton] at hw
      rcases hw with hw | hw
      · exact he1.2.2.2.1 w hw
      · exact hw
  | ctorCount size alive hc =>
    simp only [hc] at hn
    have he1 := he (by simp [hc])
    refine ⟨hb, ?_, ?_⟩
    · exact hn.2.2
    · intro _
      exact he1
  | ctorReturn size alive hc hl =>
    simp only [hc] at hn
    refine ⟨hb, ?_, ?_⟩
    · simp only [THREADPOOL_MAX_NUM] at *
      show m.pool._pool.length = min m.pool._initSize 16
      omega
    · intro hx
      exact absurd rfl hx
  | commitStopped body alive hc hr => exact ⟨hb, hn, he⟩
  | commitBegin body alive hc hr =>
    refine ⟨hb, ?_, ?_⟩
    · simpa only [hc] using hn
    · intro hx
      exact absurd hc hx
  | commit2Stopped body alive hc hr => exact ⟨hb, hn, he⟩
  | commit2Begin body alive hc hr =>
    refine ⟨hb, ?_, ?_⟩
    · simpa only [hc] using hn
    · intro hx
      exact absurd hc hx
  | enqueue k t alive hk =>
    have hd : m.ctor = Ctor.done := by
      by_contra hx
      have := (he hx).2.2.1
      simp [this] at hk
    refine ⟨hb, ?_, ?_⟩
    · simpa only [emplace, hd] using hn
    · intro hx
      exact absurd hd hx
  | fetchExit i alive hw hr hq =>
    have hd : m.ctor = Ctor.done := by
      by_contra hx
      have := (he hx).1
      simp [this] at hr
    refine ⟨?_, ?_, ?_⟩
    · simpa only [setWorker, List.length_set] using hb
    · simpa only [setWorker, List.length_set, hd] using hn
    · intro hx
      exact absurd hd hx
  | fetchPop i t rest alive hw hq =>
    have hd : m.ctor = Ctor.done := by
      by_contra hx
      have := (he hx).2.1
      simp [this] at hq
    refine ⟨?_, ?_, ?_⟩
    · simpa only [List.length_set] using hb
    · simpa only [List.length_set, hd] using hn
    · intro hx
      exact absurd hd hx
  | execReturn i t futures alive hw hi =>
    have hd : m.ctor = Ctor.done := by
      by_contra hx
      have := (he hx).2.2.2.1 _ (mem_of_getElem _ _ _ hw)
      simp at this
    refine ⟨?_, ?_, ?_⟩
    · simpa only [setWorker, List.length_set] using hb
    · simpa only [setWorker, List.length_set, hd] using hn
    · intro hx
      exact absurd hd hx
  | execThrow i t alive hw hi => exact ⟨hb, hn, he⟩
  | back i alive hw =>
    have hd : m.ctor = Ctor.done := by
      by_contra hx
      have := (he hx).2.2.2.1 _ (mem_of_getElem _ _ _ hw)
      simp at this
    refine ⟨?_, ?_, ?_⟩
    · simpa only [List.length_set] using hb
    · simpa only [List.length_set, hd] using hn
    · intro hx
      exact absurd hd hx
  | stop alive hc hd =>
    refine ⟨hb, ?_, ?_⟩
    · simpa only [hc] using hn
    · intro hx
      exact absurd hc hx
  | join k alive hd hw =>
    have hc : m.ctor = Ctor.done := by
      by_contra hx
      have := (he hx).2.2.2.2
      simp [this] at hd
    refine ⟨hb, ?_, ?_⟩
    · simpa only [hc] using hn
    · intro hx
      exact absurd hc hx
  | dtorReturn k alive hd hk =>
    have hc : m.ctor = Ctor.done := by
      by_contra hx
      have := (he hx).2.2.2.2
      simp [this] at hd
    refine ⟨hb, ?_, ?_⟩
    · simpa only [hc] using hn
    · intro hx
      exact absurd hc hx

theorem idleInv_init (V : Type) (size : Nat) : IdleInv (Machine.init V size) := by
  simp [IdleInv, Machine.init, threadpool.fresh, credits, Ctor.uncounted]

theorem idleInv_step {V : Type} (m : Machine V) (a : Action V) (m1 : Machine V)
    (h : IdleInv m) (hs : Step m a m1) : IdleInv m1 := by
  unfold IdleInv at h ⊢
  cases hs with
  | ctorSpawn size alive hc hl hs =>
    simp only [hc, Ctor.uncounted, credits_append, credit] at h ⊢
    omega
  | ctorCount size alive hc =>
    simp only [hc, Ctor.uncounted] at h ⊢
    omega
  | ctorReturn size alive hc hl =>
    simp only [hc, Ctor.uncounted] at h ⊢
    exact h
  | commitStopped body alive hc hr => exact h
  | commitBegin body alive hc hr => exact h
  | commit2Stopped body alive hc hr => exact h
  | commit2Begin body alive hc hr => exact h
  | enqueue k t alive hk => exact h
  | fetchExit i alive hw hr hq =>
    simp only [setWorker, credits_set _ _ _ _ hw, credit] at h ⊢
    omega
  | fetchPop i t rest alive hw hq =>
    simp only [credits_set _ _ _ _ hw, credit] at h ⊢
    omega
  | execReturn i t futures alive hw hi =>
    simp only [setWorker, credits_set _ _ _ _ hw, credit] at h ⊢
    omega
  | execThrow i t alive hw hi => exact h
  | back i alive hw =>
    simp only [credits_set _ _ _ _ hw, credit] at h ⊢
    omega
  | stop alive hc hd => exact h
  | join k alive hd hw => exact h
  | dtorReturn k alive hd hk => exact h

theorem getElem_set_exited {V : Type} (l : List (Worker V)) (i j : Nat) (old new : Worker V)
    (hi : l[i]? = some old) (ho : old ≠ Worker.exited)
    (hj : l[j]? = some Worker.exited) : (l.set i new)[j]? = some Worker.exited := by
  have hne : i ≠ j := by
    intro e
    subst e
    rw [hi] at hj
    exact ho (Option.some.inj hj)
  rw [List.getElem?_set_ne hne]
  exact hj

theorem stopInv_init (V : Type) (size : Nat) : StopInv (Machine.init V size) := by
  simp [StopInv, Machine.init, threadpool.fresh]

/-- A step that moves worker `i` from a state other than `exited` to a state
other than `exited`, and changes neither `_run` nor the destructor. -/
theorem stopInv_set {V : Type} (m : Machine V) (i : Nat) (old new : Worker V)
    (m1 : Machine V)
    (h : StopInv m) (hw : m.pool._pool[i]? = some old) (ho : old ≠ Worker.exited)
    (hn : new ≠ Worker.exited ∨ m.pool._run = false)
    (hp : m1.pool._pool = m.pool._pool.set i new) (hr : m1.pool._run = m.pool._run)
    (hd : m1.dtor = m.dtor) (hc : m1.ctor = m.ctor) : StopInv m1 := by
  obtain ⟨h1, h2, h3, h4⟩ := h
  refine ⟨by rw [hd, hr]; exact h1, by rw [hd, hc]; exact h2, ?_, ?_⟩
  · intro hrun w hw1
    rw [hr] at hrun
    rw [hp] at hw1
    rcases mem_of_mem_set _ _ _ _ hw1 with e | e
    · rcases hn with hn | hn
      · exact e ▸ hn
      · rw [hn] at hrun
        exact absurd hrun (by simp)
    · exact h3 hrun w e
  · rw [hd]
    cases hdt : m.dtor with
    | idle => trivial
    | joining k =>
      simp only [hdt] at h4
      intro j hj
      rw [hp]
      exact getElem_set_exited _ _ _ _ _ hw ho (h4 j hj)
    | done =>
      simp only [hdt] at h4
      exact absurd (h4 old (mem_of_getElem _ _ _ hw)) ho

theorem stopInv_step {V : Type} (m : Machine V) (a : Action V) (m1 : Machine V)
    (h : StopInv m) (hs : Step m a m1) : StopInv m1 := by
  cases hs with
  | ctorSpawn size alive hc hl hs =>
    obtain ⟨h1, h2, h3, h4⟩ := h
    have hd : m.dtor = Dtor.idle := by
      by_contra hx
      have := h2 hx
      simp [hc] at this
    refine ⟨h1, ?_, ?_, ?_⟩
    · intro hx
      exact absurd hd hx
    · intro hrun w hw
      simp only [List.mem_append, List.mem_singleton] at hw
      rcases hw with hw | hw
      · exact h3 hrun w hw
      · simp [hw]
    · simp only [hd]
  | ctorCount size alive hc =>
    obtain ⟨h1, h2, h3, h4⟩ := h
    have hd : m.dtor = Dtor.idle := by
      by_contra hx
      have := h2 hx
      simp [hc] at this
    refine ⟨h1, ?_, h3, ?_⟩
    · intro hx
      exact absurd hd hx
    · simp only [hd]
  | ctorReturn size alive hc hl =>
    obtain ⟨h1, h2, h3, h4⟩ := h
    exact ⟨h1, fun _ => rfl, h3, h4⟩
  | commitStopped body alive hc hr => exact h
  | commitBegin body alive hc hr => exact h
  | commit2Stopped body alive hc hr => exact h
  | commit2Begin body alive hc hr => exact h
  | enqueue k t alive hk => exact h
  | fetchExit i alive hw hr hq =>
    exact stopInv_set m i _ Worker.exited _ h hw (by simp) (Or.inr hr) rfl rfl rfl rfl
  | fetchPop i t rest alive hw hq =>
    exact stopInv_set m i _ (Worker.holding t) _ h hw (by simp) (Or.inl (by simp)) rfl rfl rfl rfl
  | execReturn i t futures alive hw hi =>
    exact stopInv_set m i _ Worker.finished _ h hw (by simp) (Or.inl (by simp)) rfl rfl rfl rfl
  | execThrow i t alive hw hi => exact h
  | back i alive hw =>
    exact stopInv_set m i _ Worker.waiting _ h hw (by simp) (Or.inl (by simp)) rfl rfl rfl rfl
  | stop alive hc hd =>
    obtain ⟨h1, h2, h3, h4⟩ := h
    refine ⟨by simp, fun _ => hc, ?_, ?_⟩
    · intro hx
      simp at hx
    · intro j hj
      exact absurd hj (Nat.not_lt_zero j)
  | join k alive hd hw =>
    obtain ⟨h1, h2, h3, h4⟩ := h
    have hne : m.dtor ≠ Dtor.idle := by simp [hd]
    refine ⟨?_, fun _ => h2 hne, h3, ?_⟩
    · constructor
      · intro hx
        simp at hx
      · intro hx
        exact absurd (h1.mpr hx) hne
    · simp only [hd] at h4
      intro j hj
      rcases Nat.lt_succ_iff_lt_or_eq.mp hj with hlt | heq
      · exact h4 j hlt
      · exact heq ▸ hw
  | dtorReturn k alive hd hk =>
    obtain ⟨h1, h2, h3, h4⟩ := h
    have hne : m.dtor ≠ Dtor.idle := by simp [hd]
    refine ⟨?_, fun _ => h2 hne, h3, ?_⟩
    · constructor
      · intro hx
        simp at hx
      · intro hx
        exact absurd (h1.mpr hx) hne
    · simp only [hd] at h4
      intro w hw
      obtain ⟨j, hj, e⟩ := List.getElem_of_mem hw
      have hj1 : j < m.pool._pool.length := hj
      have := h4 j (by omega)
      rw [List.getElem?_eq_getElem hj, e] at this
      exact Option.some.inj this

theorem single_of_getElem {V : Type} (l : List (Worker V)) (i : Nat) (w : Worker V)
    (hl : l.length ≤ 1) (h : l[i]? = some w) : l = [w] ∧ i = 0 := by
  match l, i with
  | [], _ => simp at h
  | [x], 0 =>
    simp only [List.getElem?_cons_zero, Option.some.injEq] at h
    exact ⟨by rw [h], rfl⟩
  | [x], j + 1 => simp at h
  | x :: y :: ys, _ => simp at hl

theorem queueInv_init (V : Type) (size : Nat) : QueueInv (Machine.init V size) := by
  simp [QueueInv, Machine.init, threadpool.fresh, held]

theorem queueInv_step {V : Type} (m : Machine V) (a : Action V) (m1 : Machine V)
    (h : QueueInv m) (hs : Step m a m1) : QueueInv m1 := by
  obtain ⟨h1, h2, h3⟩ := h
  cases hs with
  | ctorSpawn size alive hc hl hs =>
    have e : held (m.pool._pool ++ [Worker.waiting]) = held m.pool._pool := by
      rw [held_append]
      simp [held]
    refine ⟨h1, ?_, ?_⟩
    · show m.deq.Perm (m.fin ++ held (m.pool._pool ++ [Worker.waiting]))
      rw [e]
      exact h2
    · intro hlen
      show m.deq = m.fin ++ held (m.pool._pool ++ [Worker.waiting])
      rw [e]
      apply h3
      have : (m.pool._pool ++ [Worker.waiting]).length ≤ 1 := hlen
      simp only [List.length_append, List.length_singleton] at this
      omega
  | ctorCount size alive hc => exact ⟨h1, h2, h3⟩
  | ctorReturn size alive hc hl => exact ⟨h1, h2, h3⟩
  | commitStopped body alive hc hr => exact ⟨h1, h2, h3⟩
  | commitBegin body alive hc hr => exact ⟨h1, h2, h3⟩
  | commit2Stopped body alive hc hr => exact ⟨h1, h2, h3⟩
  | commit2Begin body alive hc hr => exact ⟨h1, h2, h3⟩
  | enqueue k t alive hk =>
    refine ⟨?_, h2, h3⟩
    show m.enq ++ [t] = m.deq ++ (m.pool._tasks ++ [t])
    rw [h1, List.append_assoc]
  | fetchExit i alive hw hr hq =>
    have e : held (m.pool._pool.set i Worker.exited) = held m.pool._pool :=
      held_set_none _ _ _ _ hw (by simp [held]) (by simp [held])
    refine ⟨h1, ?_, ?_⟩
    · show m.deq.Perm (m.fin ++ held (m.pool._pool.set i Worker.exited))
      rw [e]
      exact h2
    · intro hlen
      show m.deq = m.fin ++ held (m.pool._pool.set i Worker.exited)
      rw [e]
      apply h3
      have : (m.pool._pool.set i Worker.exited).length ≤ 1 := hlen
      simpa only [List.length_set] using this
  | fetchPop i t rest alive hw hq =>
    refine ⟨?_, ?_, ?_⟩
    · show m.enq = (m.deq ++ [t]) ++ rest
      rw [h1, hq, List.append_assoc]
      rfl
    · show (m.deq ++ [t]).Perm (m.fin ++ held (m.pool._pool.set i (Worker.holding t)))
      have p1 : (held (m.pool._pool.set i (Worker.holding t))).Perm (t :: held m.pool._pool) :=
        held_set_take _ _ _ t hw (by simp [held])
      have p2 : (m.deq ++ [t]).Perm (t :: m.deq) := List.perm_append_singleton t m.deq
      have p3 : (t :: m.deq).Perm (t :: (m.fin ++ held m.pool._pool)) := h2.cons t
      have p4 : (t :: (m.fin ++ held m.pool._pool)).Perm (m.fin ++ t :: held m.pool._pool) :=
        List.perm_middle.symm
      exact p2.trans (p3.trans (p4.trans (List.Perm.append_left m.fin p1.symm)))
    · intro hlen
      have hl : m.pool._pool.length ≤ 1 := by
        have : (m.pool._pool.set i (Worker.holding t)).length ≤ 1 := hlen
        simpa only [List.length_set] using this
      obtain ⟨ep, ei⟩ := single_of_getElem _ _ _ hl hw
      have hd := h3 hl
      show m.deq ++ [t] = m.fin ++ held (m.pool._pool.set i (Worker.holding t))
      rw [hd, ep, ei]
      simp [held]
  | execReturn i t futures alive hw hi =>
    refine ⟨h1, ?_, ?_⟩
    · show m.deq.Perm ((m.fin ++ [t]) ++ held (m.pool._pool.set i Worker.finished))
      have p1 : (held m.pool._pool).Perm (t :: held (m.pool._pool.set i Worker.finished)) :=
        held_set_drop _ _ _ t hw (by simp [held])
      rw [List.append_assoc]
      exact h2.trans (List.Perm.append_left m.fin p1)
    · intro hlen
      have hl : m.pool._pool.length ≤ 1 := by
        have : (m.pool._pool.set i Worker.finished).length ≤ 1 := hlen
        simpa only [List.length_set] using this
      obtain ⟨ep, ei⟩ := single_of_getElem _ _ _ hl hw
      have hd := h3 hl
      show m.deq = (m.fin ++ [t]) ++ held (m.pool._pool.set i Worker.finished)
      rw [hd, ep, ei]
      simp [held]
  | execThrow i t alive hw hi => exact ⟨h1, h2, h3⟩
  | back i alive hw =>
    have e : held (m.pool._pool.set i Worker.waiting) = held m.pool._pool :=
      held_set_none _ _ _ _ hw (by simp [held]) (by simp [held])
    refine ⟨h1, ?_, ?_⟩
    · show m.deq.Perm (m.fin ++ held (m.pool._pool.set i Worker.waiting))
      rw [e]
      exact h2
    · intro hlen
      show m.deq = m.fin ++ held (m.pool._pool.set i Worker.waiting)
      rw [e]
      apply h3
      have : (m.pool._pool.set i Worker.waiting).length ≤ 1 := hlen
      simpa only [List.length_set] using this
  | stop alive hc hd => exact ⟨h1, h2, h3⟩
  | join k alive hd hw => exact ⟨h1, h2, h3⟩
  | dtorReturn k alive hd hk => exact ⟨h1, h2, h3⟩

/-- The invariants together, in every reachable state. -/
theorem reachable_inv {V : Type} (m : Machine V) (h : Reachable m) :
    CtorInv m ∧ IdleInv m ∧ StopInv m ∧ QueueInv m := by
  refine reachable_induction (P := fun m => CtorInv m ∧ IdleInv m ∧ StopInv m ∧ QueueInv m)
    ?_ ?_ m h
  · intro size
    exact ⟨ctorInv_init V size, idleInv_init V size, stopInv_init V size, queueInv_init V size⟩
  · intro m a m1 hm hs
    exact ⟨ctorInv_step m a m1 hm.1 hs, idleInv_step m a m1 hm.2.1 hs,
      stopInv_step m a m1 hm.2.2.1 hs, queueInv_step m a m1 hm.2.2.2 hs⟩

/-! ## The member functions run on their own -/

theorem commit_running {V A : Type} (m : Machine V) (f : A → Outcome V) (args : A)
    (hr : m.pool._run = true) :
    commit m f args =
      (Except.ok m.futures.length,
        emplace { m with futures := m.futures ++ [Cell.pending] }
          (Task.packaged m.futures.length (fun _ => f args))) := by
  simp [commit, package, hr]

theorem addThread_spec {V : Type} (n : Nat) :
    ∀ p : threadpool V,
      (p.addThread n)._pool =
        p._pool ++ List.replicate (min n (THREADPOOL_MAX_NUM - p._pool.length)) Worker.waiting ∧
      (p.addThread n)._idlThrNum =
        p._idlThrNum + ((min n (THREADPOOL_MAX_NUM - p._pool.length) : Nat) : Int) ∧
      (p.addThread n)._tasks = p._tasks ∧ (p.addThread n)._run = p._run ∧
      (p.addThread n)._initSize = p._initSize := by
  induction n with
  | zero =>
    intro p
    simp [threadpool.addThread]
  | succ n ih =>
    intro p
    unfold threadpool.addThread
    by_cases hl : p._pool.length < THREADPOOL_MAX_NUM
    · rw [if_pos hl]
      obtain ⟨h1, h2, h3, h4, h5⟩ :=
        ih { p with _pool := p._pool ++ [Worker.waiting], _idlThrNum := p._idlThrNum + 1 }
      have e : min (n + 1) (THREADPOOL_MAX_NUM - p._pool.length)
          = min n (THREADPOOL_MAX_NUM - (p._pool.length + 1)) + 1 := by omega
      refine ⟨?_, ?_, h3, h4, h5⟩
      · rw [h1, e]
        simp only [List.length_append, List.length_singleton, List.append_assoc,
          List.singleton_append, List.replicate_succ]
      · rw [h2, e]
        simp only [List.length_append, List.length_singleton]
        push_cast
        ring
    · rw [if_neg hl]
      have e : min (n + 1) (THREADPOOL_MAX_NUM - p._pool.length) = 0 := by omega
      rw [e]
      simp

/-- C1: for every state whose `_run` is false, `commit` throws the
`runtime_error` and `commit2` returns normally, and both leave the whole state,
so queue, workers and idle counter, as it was; when `_run` is true neither
fails and the task is put at the back of the queue. -/
theorem commit_respects_run {V A : Type} (m : Machine V) (f : A → Outcome V) (args : A)
    (task : Unit → Outcome Unit) :
    (m.pool._run = false →
      commit m f args = (Except.error "commit on ThreadPool is stopped.", m) ∧
      commit2 m task = (Except.ok (), m)) ∧
    (m.pool._run = true →
      (commit m f args).1 = Except.ok m.futures.length ∧
      (commit m f args).2.pool._tasks =
        m.pool._tasks ++ [Task.packaged m.futures.length (fun _ => f args)] ∧
      (commit2 m task).1 = Except.ok () ∧
      (commit2 m task).2.pool._tasks = m.pool._tasks ++ [Task.plain task]) := by
  constructor
  · intro hr
    simp [commit, commit2, hr]
  · intro hr
    rw [commit_running m f args hr]
    simp [commit2, emplace, hr]

/-- On a pool of two workers whose `_run` is false `commit` throws, `commit2`
returns, and the state is untouched; on the same pool while it runs `commit`
returns handle `0`. -/
theorem commit_respects_run_witness :
    (commit { Machine.ready Nat 2 with
        pool := { threadpool.construct Nat 2 with _run := false } }
      (fun n : Nat => Outcome.returned (n + 1)) 5 =
        (Except.error "commit on ThreadPool is stopped.",
          { Machine.ready Nat 2 with pool := { threadpool.construct Nat 2 with _run := false } }) ∧
      commit2 { Machine.ready Nat 2 with
        pool := { threadpool.construct Nat 2 with _run := false } }
        (fun _ => Outcome.returned ()) =
        (Except.ok (),
          { Machine.ready Nat 2 with
            pool := { threadpool.construct Nat 2 with _run := false } })) ∧
    (commit (Machine.ready Nat 2) (fun n : Nat => Outcome.returned (n + 1)) 5).1 = Except.ok 0 :=
  ⟨(commit_respects_run _ (fun n : Nat => Outcome.returned (n + 1)) 5
      (fun _ => Outcome.returned ())).1 rfl,
    ((commit_respects_run (Machine.ready Nat 2) (fun n : Nat => Outcome.returned (n + 1)) 5
      (fun _ => Outcome.returned ())).2 rfl).1⟩

theorem steps_append {V : Type} (as bs : List (Action V)) :
    ∀ m m1 m2 : Machine V, steps m as = some m1 → steps m1 bs = some m2 →
      steps m (as ++ bs) = some m2 := by
  induction as with
  | nil =>
    intro m m1 m2 h1 h2
    simp only [steps, Option.some.injEq] at h1
    subst h1
    exact h2
  | cons a as ih =>
    intro m m1 m2 h1 h2
    simp only [List.cons_append, steps] at h1 ⊢
    cases hs : step m a with
    | none => simp [hs] at h1
    | some m3 =>
      simp only [hs] at h1 ⊢
      exact ih m3 m1 m2 h1 h2

theorem reachable_steps {V : Type} (m m1 : Machine V) (acts : List (Action V))
    (h : Reachable m) (hs : steps m acts = some m1) : Reachable m1 := by
  obtain ⟨size, as, ha⟩ := h
  exact ⟨size, as ++ acts, steps_append as acts _ m m1 ha hs⟩

/-- The loop of `addThread` taken step by step, with no other step in between,
ends in the state that `addThread` run on its own computes. -/
theorem ctor_steps {V : Type} (r : Nat) :
    ∀ m : Machine V, m.terminated = false → m.ctor = Ctor.loop r →
      ∃ acts, steps m acts = some { m with pool := m.pool.addThread r, ctor := Ctor.done } := by
  induction r with
  | zero =>
    intro m alive hc
    refine ⟨[Action.ctorReturn], ?_⟩
    simp [steps, step, alive, hc, threadpool.addThread]
  | succ r ih =>
    intro m alive hc
    by_cases hl : m.pool._pool.length < THREADPOOL_MAX_NUM
    · obtain ⟨acts, ha⟩ := ih
        { m with
          pool := { m.pool with
            _pool := m.pool._pool ++ [Worker.waiting]
            _idlThrNum := m.pool._idlThrNum + 1 }
          ctor := Ctor.loop r } alive rfl
      refine ⟨Action.ctorSpawn :: Action.ctorCount :: acts, ?_⟩
      have e : m.pool.addThread (r + 1) =
          threadpool.addThread
            { m.pool with
              _pool := m.pool._pool ++ [Worker.waiting]
              _idlThrNum := m.pool._idlThrNum + 1 } r := by
        conv_lhs => unfold threadpool.addThread
        rw [if_pos hl]
      have s1 : step m Action.ctorSpawn =
          some { m with
            pool := { m.pool with _pool := m.pool._pool ++ [Worker.waiting] }
            ctor := Ctor.spawned (r + 1) } := by
        simp [step, alive, hc, hl]
      have s2 : step
          { m with
            pool := { m.pool with _pool := m.pool._pool ++ [Worker.waiting] }
            ctor := Ctor.spawned (r + 1) } Action.ctorCount =
          some { m with
            pool := { m.pool with
              _pool := m.pool._pool ++ [Worker.waiting]
              _idlThrNum := m.pool._idlThrNum + 1 }
            ctor := Ctor.loop r } := by
        simp [step, alive]
      rw [e]
      simp only [steps, s1, s2]
      exact ha
    · refine ⟨[Action.ctorReturn], ?_⟩
      have e : m.pool.addThread (r + 1) = m.pool := by
        conv_lhs => unfold threadpool.addThread
        rw [if_neg hl]
      simp [steps, step, alive, hc, hl, e]

theorem ready_reachable (V : Type) (size : Nat) : Reachable (Machine.ready V size) := by
  obtain ⟨acts, ha⟩ := ctor_steps size (Machine.init V size) rfl rfl
  exact ⟨size, acts, ha⟩

/-- C7: on a pool of `s` workers with `s` at most `THREADPOOL_MAX_NUM`,
`addThread(n)` starts exactly `min n (THREADPOOL_MAX_NUM - s)` workers, at most
`n`, keeps the workers that were there, ends with at most `THREADPOOL_MAX_NUM`
workers and raises the idle counter by the number started; `threadpool(size)`
has `thrCount() = min size THREADPOOL_MAX_NUM`, also when the constructor is
taken step by step among the other threads, and `thrCount()` is at most
`THREADPOOL_MAX_NUM` in every reachable state. -/
theorem addThread_bounded {V : Type} (p : threadpool V) (n : Nat)
    (hs : p._pool.length ≤ THREADPOOL_MAX_NUM) :
    (p.addThread n)._pool =
      p._pool ++ List.replicate (min n (THREADPOOL_MAX_NUM - p._pool.length)) Worker.waiting ∧
    (p.addThread n).thrCount =
      p.thrCount + ((min n (THREADPOOL_MAX_NUM - p._pool.length) : Nat) : Int) ∧
    min n (THREADPOOL_MAX_NUM - p._pool.length) ≤ n ∧
    (p.addThread n).thrCount ≤ 16 ∧
    (p.addThread n).idlCount =
      p.idlCount + ((min n (THREADPOOL_MAX_NUM - p._pool.length) : Nat) : Int) ∧
    (∀ size : Nat, (threadpool.construct V size).thrCount = ((min size 16 : Nat) : Int)) ∧
    (∀ m : Machine V, Reachable m → m.ctor = Ctor.done →
      m.pool.thrCount = ((min m.pool._initSize 16 : Nat) : Int)) ∧
    (∀ m : Machine V, Reachable m → m.pool.thrCount ≤ 16) := by
  obtain ⟨h1, h2, _, _, _⟩ := addThread_spec n p
  have hlen : (p.addThread n)._pool.length
      = p._pool.length + min n (THREADPOOL_MAX_NUM - p._pool.length) := by
    rw [h1]
    simp
  refine ⟨h1, ?_, Nat.min_le_left _ _, ?_, h2, ?_, ?_, ?_⟩
  · simp only [threadpool.thrCount, hlen]
    push_cast
    rfl
  · simp only [threadpool.thrCount, hlen]
    simp only [THREADPOOL_MAX_NUM] at hs ⊢
    omega
  · intro size
    obtain ⟨g1, _⟩ := addThread_spec size (threadpool.fresh V size)
    simp only [threadpool.construct, threadpool.thrCount, g1]
    simp [threadpool.fresh, THREADPOOL_MAX_NUM]
  · intro m hm hc
    obtain ⟨⟨_, hn, _⟩, _⟩ := reachable_inv m hm
    simp only [hc] at hn
    simp only [threadpool.thrCount, hn, THREADPOOL_MAX_NUM]
  · intro m hm
    obtain ⟨⟨hb, _, _⟩, _⟩ := reachable_inv m hm
    simp only [threadpool.thrCount]
    simp only [THREADPOOL_MAX_NUM] at hb
    omega

/-- `addThread(5)` on the pool that `threadpool(14)` builds starts two workers
and stops at sixteen. -/
theorem addThread_bounded_witness :
    (threadpool.construct Nat 14)._pool.length ≤ THREADPOOL_MAX_NUM ∧
    ((threadpool.construct Nat 14).addThread 5).thrCount = 16 ∧
    ((threadpool.construct Nat 14).addThread 5).idlCount = 16 :=
  ⟨by decide,
    by
      have h := addThread_bounded (threadpool.construct Nat 14) 5 (by decide)
      rw [h.2.1]
      decide,
    by
      have h := addThread_bounded (threadpool.construct Nat 14) 5 (by decide)
      rw [h.2.2.2.2.1]
      decide⟩

/-- C5: `commit(f, args)` on a running pool returns the handle of a new shared
state that is pending, enqueues the wrapper of the bound call and runs nothing
(no task is dequeued or completed by it); when a worker that holds the wrapper
executes it, the call returns to the worker and the shared state holds exactly
`f args`, the value returned or the failure raised, while the other shared
states are untouched. -/
theorem commit_future {V A : Type} (m : Machine V) (f : A → Outcome V) (args : A)
    (hr : m.pool._run = true) :
    (commit m f args).1 = Except.ok m.futures.length ∧
    (commit m f args).2.pool._tasks =
      m.pool._tasks ++ [Task.packaged m.futures.length (fun _ => f args)] ∧
    (commit m f args).2.futures = m.futures ++ [Cell.pending] ∧
    (commit m f args).2.futures[m.futures.length]? = some Cell.pending ∧
    (commit m f args).2.deq = m.deq ∧ (commit m f args).2.fin = m.fin ∧
    (commit m f args).2.pool._pool = m.pool._pool ∧
    (∀ (m1 : Machine V) (i : Nat),
      m1.pool._pool[i]? =
        some (Worker.holding (Task.packaged m.futures.length (fun _ => f args))) →
      m.futures.length < m1.futures.length →
      ∃ m2, exec m1 i = some m2 ∧
        m2.futures[m.futures.length]? = some (Cell.ready (f args)) ∧
        (∀ j, j ≠ m.futures.length → m2.futures[j]? = m1.futures[j]?) ∧
        m2.pool._pool[i]? = some Worker.finished ∧
        m2.terminated = m1.terminated) := by
  rw [commit_running m f args hr]
  refine ⟨rfl, rfl, rfl, ?_, rfl, rfl, rfl, ?_⟩
  · simp [emplace]
  · intro m1 i hw hlen
    refine ⟨{ setWorker m1 i Worker.finished with
        futures := m1.futures.set m.futures.length (Cell.ready (f args))
        fin := m1.fin ++ [Task.packaged m.futures.length (fun _ => f args)] }, ?_, ?_, ?_, ?_, rfl⟩
    · simp [exec, hw, invoke]
    · simp [hlen]
    · intro j hj
      simp [List.getElem?_set_ne (Ne.symm hj)]
    · have hi : i < m1.pool._pool.length := by
        by_contra hx
        rw [List.getElem?_eq_none (Nat.le_of_not_lt hx)] at hw
        exact absurd hw (by simp)
      simp [setWorker, hi]

/-- On the pool of `threadpool(1)`, a committed call that raises: the handle is
`0`, and once the worker has executed the wrapper the shared state holds the
failure. -/
theorem commit_future_witness :
    (commit (Machine.ready Nat 1) (fun _ : Nat => (Outcome.raised "bad" : Outcome Nat)) 3).1
      = Except.ok 0 ∧
    ((steps (commit (Machine.ready Nat 1)
        (fun _ : Nat => (Outcome.raised "bad" : Outcome Nat)) 3).2
        [Action.fetch 0, Action.exec 0]).map (fun m2 => (m2.futures[0]?, m2.terminated)))
      = some (some (Cell.ready (Outcome.raised "bad")), false) :=
  ⟨(commit_future (Machine.ready Nat 1) (fun _ : Nat => (Outcome.raised "bad" : Outcome Nat)) 3
      rfl).1, rfl⟩

/-- C6, as the code has it: a worker that holds a task whose call returns to
it (every task submitted through `commit`, whether its callable returns or
raises, and a `commit2` callable that does not raise) executes it, increments
`_idlThrNum` and is back at its wait; queue, `_run`, the submissions in flight
and every other worker are as before, and the process is not terminated. -/
theorem worker_back_to_wait {V : Type} (m : Machine V) (i : Nat) (t : Task V)
    (alive : m.terminated = false)
    (hw : m.pool._pool[i]? = some (Worker.holding t)) (ht : t.returns = true) :
    ∃ m1 m2, step m (Action.exec i) = some m1 ∧ step m1 (Action.back i) = some m2 ∧
      m2.pool._pool = m.pool._pool.set i Worker.waiting ∧
      m2.pool._idlThrNum = m.pool._idlThrNum + 1 ∧
      m2.pool._tasks = m.pool._tasks ∧ m2.pool._run = m.pool._run ∧
      m2.inflight = m.inflight ∧ m2.terminated = false ∧ m2.fin = m.fin ++ [t] := by
  have hi : i < m.pool._pool.length := by
    by_contra hx
    rw [List.getElem?_eq_none (Nat.le_of_not_lt hx)] at hw
    exact absurd hw (by simp)
  have hinv : ∃ futures, invoke t m.futures = some futures := by
    cases t with
    | packaged h body => exact ⟨_, rfl⟩
    | plain body =>
      simp only [Task.returns] at ht
      simp only [invoke]
      cases hb : body () with
      | returned v => exact ⟨_, rfl⟩
      | raised e => simp [hb] at ht
  obtain ⟨futures, hf⟩ := hinv
  refine ⟨{ setWorker m i Worker.finished with futures := futures, fin := m.fin ++ [t] },
    { m with
      pool := { m.pool with
        _pool := m.pool._pool.set i Worker.waiting
        _idlThrNum := m.pool._idlThrNum + 1 }
      futures := futures
      fin := m.fin ++ [t] }, ?_, ?_, rfl, rfl, rfl, rfl, rfl, alive, rfl⟩
  · simp [step, alive, exec, hw, hf]
  · simp [step, alive, back, setWorker, hi]

/-- The worker of `threadpool(1)` holding a committed call that raises goes
back to its wait. -/
theorem worker_back_to_wait_witness :
    ∃ m m1 m2 : Machine Nat,
      steps (commit (Machine.ready Nat 1)
        (fun _ : Nat => (Outcome.raised "bad" : Outcome Nat)) 3).2 [Action.fetch 0] = some m ∧
      step m (Action.exec 0) = some m1 ∧ step m1 (Action.back 0) = some m2 ∧
      m2.pool._pool = m.pool._pool.set 0 Worker.waiting ∧
      m2.pool._idlThrNum = m.pool._idlThrNum + 1 ∧ m2.terminated = false := by
  have hm : ∃ m : Machine Nat,
      steps (commit (Machine.ready Nat 1)
        (fun _ : Nat => (Outcome.raised "bad" : Outcome Nat)) 3).2 [Action.fetch 0] = some m ∧
      m.terminated = false ∧
      m.pool._pool[0]? = some (Worker.holding (Task.packaged 0 (fun _ => Outcome.raised "bad"))) :=
    ⟨_, rfl, rfl, rfl⟩
  obtain ⟨m, e, alive, hw⟩ := hm
  obtain ⟨m1, m2, h1, h2, h3, h4, _, _, _, h8, _⟩ := worker_back_to_wait m 0 _ alive hw rfl
  exact ⟨m, m1, m2, e, h1, h2, h3, h4, h8⟩

/-- C6 as stated fails: on the pool of `threadpool(1)`, the worker that holds a
`commit2` callable which raises does not return to its wait.  Executing it
terminates the process, `_idlThrNum` stays decremented, and no step follows. -/
theorem plain_failure_ends_process :
    ∃ m m1 : Machine Unit,
      steps (Machine.init Unit 1)
        [Action.ctorSpawn, Action.ctorCount, Action.ctorReturn,
          Action.commit2 (fun _ => Outcome.raised "boom"), Action.enqueue 0,
          Action.fetch 0] = some m ∧
      m.pool._pool[0]? = some (Worker.holding (Task.plain (fun _ => Outcome.raised "boom"))) ∧
      step m (Action.exec 0) = some m1 ∧
      m1.terminated = true ∧
      m1.pool._pool[0]? = some (Worker.holding (Task.plain (fun _ => Outcome.raised "boom"))) ∧
      m1.pool.idlCount = 0 ∧
      (∀ a, step m1 a = none) := by
  refine ⟨_, _, rfl, rfl, rfl, rfl, rfl, rfl, ?_⟩
  intro a
  rfl

theorem wrappers_length {S V T : Type} (rvalue : Bool) (cs : List T) :
    ∀ (f : Callable S T V) (h : Nat), (wrappers rvalue f h cs).length = cs.length := by
  induction cs with
  | nil => intro f h; rfl
  | cons x xs ih => intro f h; simp [wrappers, ih]

/-- With a callable passed as an lvalue every entry wraps the call of the
callable as it was handed in. -/
theorem wrappers_lvalue {S V T : Type} (f : Callable S T V) (cs : List T) :
    ∀ (h k : Nat) (v : T), cs[k]? = some v →
      (wrappers false f h cs)[k]? = some (Task.packaged (h + k) (fun _ => f.invoke v)) := by
  induction cs with
  | nil =>
    intro h k v hk
    simp at hk
  | cons x xs ih =>
    intro h k v hk
    cases k with
    | zero =>
      simp only [List.getElem?_cons_zero, Option.some.injEq] at hk
      subst hk
      simp [wrappers]
    | succ j =>
      simp only [List.getElem?_cons_succ] at hk
      have e : h + 1 + j = h + (j + 1) := by omega
      have e1 : f.forwarded false = f := rfl
      simp only [wrappers, List.getElem?_cons_succ, e1, ih (h + 1) j v hk, e]

/-- What the loop of `map_container` returns and leaves on a running pool. -/
theorem map_container_loop_spec {S V T : Type} (rvalue : Bool) (cs : List T) :
    ∀ (m : Machine V) (res : List Nat) (f : Callable S T V), m.pool._run = true →
      map_container.loop rvalue m res f cs =
        (Except.ok (res ++ List.range' m.futures.length cs.length),
          { m with
            futures := m.futures ++ List.replicate cs.length Cell.pending
            pool := { m.pool with
              _tasks := m.pool._tasks ++ wrappers rvalue f m.futures.length cs }
            enq := m.enq ++ wrappers rvalue f m.futures.length cs }) := by
  induction cs with
  | nil =>
    intro m res f _
    simp [map_container.loop, wrappers]
  | cons v cs ih =>
    intro m res f hr
    unfold map_container.loop
    rw [commit_running m f.invoke v hr]
    simp only
    rw [ih _ _ _ (by simpa [emplace] using hr)]
    simp [emplace, wrappers, List.range'_succ, List.replicate_succ]

/-- On a running pool `map_container(f, c)` returns `c.length` handles, one for
every element in order, all pending, and enqueues the wrappers in the order of
the elements behind the tasks queued before; for a callable passed as an
lvalue the wrapper at place `k` stores `f c[k]` under the `k`-th handle when it
is executed. -/
theorem map_container_spec {S V T : Type} (m : Machine V) (f : Callable S T V) (rvalue : Bool)
    (cs : List T) (hr : m.pool._run = true) :
    (map_container m f rvalue cs).1 = Except.ok (List.range' m.futures.length cs.length) ∧
    (List.range' m.futures.length cs.length).length = cs.length ∧
    (map_container m f rvalue cs).2.pool._tasks =
      m.pool._tasks ++ wrappers rvalue f m.futures.length cs ∧
    (map_container m f rvalue cs).2.futures =
      m.futures ++ List.replicate cs.length Cell.pending ∧
    (rvalue = false → ∀ (k : Nat) (v : T), cs[k]? = some v →
      (List.range' m.futures.length cs.length)[k]? = some (m.futures.length + k) ∧
      (commit (map_container m f rvalue (cs.take k)).2 f.invoke v).1
        = Except.ok (m.futures.length + k) ∧
      (map_container m f rvalue cs).2.pool._tasks[m.pool._tasks.length + k]? =
        some (Task.packaged (m.futures.length + k) (fun _ => f.invoke v)) ∧
      (∀ futures : List (Cell V), m.futures.length + k < futures.length →
        ∃ stored, invoke (Task.packaged (m.futures.length + k) (fun _ => f.invoke v)) futures
            = some stored ∧
          stored[m.futures.length + k]? = some (Cell.ready (f.invoke v)))) := by
  have hspec := map_container_loop_spec rvalue cs m [] f hr
  simp only [List.nil_append] at hspec
  refine ⟨?_, by simp, ?_, ?_, ?_⟩
  · simp only [map_container, hspec]
  · simp only [map_container, hspec]
  · simp only [map_container, hspec]
  · intro hv k v hk
    subst hv
    have hlt : k < cs.length := by
      by_contra hx
      rw [List.getElem?_eq_none (Nat.le_of_not_lt hx)] at hk
      exact absurd hk (by simp)
    refine ⟨?_, ?_, ?_, ?_⟩
    · rw [List.getElem?_range' _ _ hlt]
      simp
    · have hk1 := map_container_loop_spec false (cs.take k) m [] f hr
      simp only [List.nil_append] at hk1
      simp only [map_container, hk1]
      rw [commit_running _ f.invoke v (by simpa using hr)]
      simp only [List.length_append, List.length_replicate, List.length_take]
      have e : min k cs.length = k := by omega
      rw [e]
    · simp only [map_container, hspec]
      rw [List.getElem?_append_right (Nat.le_add_right _ _)]
      simp only [Nat.add_sub_cancel_left]
      exact wrappers_lvalue f cs _ k v hk
    · intro futures hlen
      exact ⟨_, rfl, by simp [hlen]⟩

/-- The run of `main`: `pool(4)`, `map_container` over a vector of four zeros
with the lvalue `func`, which returns `0`.  Four handles come back, in element
order, and after the workers have executed the four wrappers, here in an order
that is not the order of submission, every handle yields `0`. -/
theorem main_run :
    (map_container (Machine.ready Int 4) (Callable.of (fun _ : Int => Outcome.returned (0 : Int)))
      false [0, 0, 0, 0]).1 = Except.ok [0, 1, 2, 3] ∧
    ((steps (map_container (Machine.ready Int 4)
        (Callable.of (fun _ : Int => Outcome.returned (0 : Int))) false [0, 0, 0, 0]).2
        [Action.fetch 0, Action.fetch 1, Action.fetch 2, Action.exec 2, Action.exec 1,
          Action.back 2, Action.fetch 2, Action.exec 2, Action.exec 0]).map
      (fun m2 => m2.futures))
      = some [Cell.ready (Outcome.returned 0), Cell.ready (Outcome.returned 0),
          Cell.ready (Outcome.returned 0), Cell.ready (Outcome.returned 0)] :=
  ⟨(map_container_spec (Machine.ready Int 4) (Callable.of (fun _ : Int => Outcome.returned 0))
      false [0, 0, 0, 0] rfl).1, rfl⟩

/-- C2 fails on the code for a callable passed as an rvalue whose state a move
empties.  `map_container(sharedCapture, {10, 20})` on the pool of
`threadpool(1)` returns the handles `0` and `1` in element order, but the
second `commit` binds the callable that the first one has moved from: once the
worker has executed both wrappers, handle `1` yields `20`, while the callable
that was passed yields `23` on `20`. -/
theorem map_container_moved_from :
    (map_container (Machine.ready Int 1) sharedCapture true [10, 20]).1 = Except.ok [0, 1] ∧
    ((steps (map_container (Machine.ready Int 1) sharedCapture true [10, 20]).2
        [Action.fetch 0, Action.exec 0, Action.back 0, Action.fetch 0, Action.exec 0,
          Action.back 0]).map (fun m2 => m2.futures))
      = some [Cell.ready (Outcome.returned 13), Cell.ready (Outcome.returned 20)] ∧
    sharedCapture.invoke 20 = Outcome.returned 23 ∧
    ((steps (map_container (Machine.ready Int 1) sharedCapture false [10, 20]).2
        [Action.fetch 0, Action.exec 0, Action.back 0, Action.fetch 0, Action.exec 0,
          Action.back 0]).map (fun m2 => m2.futures))
      = some [Cell.ready (Outcome.returned 13), Cell.ready (Outcome.returned 23)] :=
  ⟨rfl, rfl, rfl, rfl⟩

/-! ## Queue order, graceful stop, and the counters -/

theorem fetch_pop {V : Type} (m : Machine V) (i : Nat) (t : Task V) (rest : List (Task V))
    (hw : m.pool._pool[i]? = some Worker.waiting) (hq : m.pool._tasks = t :: rest) :
    fetch m i = some { m with
      pool := { m.pool with
        _pool := m.pool._pool.set i (Worker.holding t)
        _tasks := rest
        _idlThrNum := m.pool._idlThrNum - 1 }
      deq := m.deq ++ [t] } := by
  simp [fetch, hw, hq]

/-- C3: the queue is first in, first out.  `commit` and `commit2` on a running
pool, and the enqueue step of a submission in flight, put the task behind the
tasks already queued; a worker at its wait takes the head and leaves the rest
in order.  In every reachable state the tasks enqueued so far are, in order,
the tasks dequeued so far followed by the queue, so tasks are dequeued in the
order they were enqueued; with a single worker the tasks completed, the task
it holds and the queue make up the tasks enqueued, in order. -/
theorem queue_is_fifo {V : Type} :
    (∀ (A : Type) (m : Machine V) (f : A → Outcome V) (args : A), m.pool._run = true →
      (commit m f args).2.pool._tasks =
        m.pool._tasks ++ [Task.packaged m.futures.length (fun _ => f args)]) ∧
    (∀ (m : Machine V) (task : Unit → Outcome Unit), m.pool._run = true →
      (commit2 m task).2.pool._tasks = m.pool._tasks ++ [Task.plain task]) ∧
    (∀ (m m1 : Machine V) (k : Nat), step m (Action.enqueue k) = some m1 →
      ∃ t, m.inflight[k]? = some t ∧ m1.pool._tasks = m.pool._tasks ++ [t] ∧
        m1.enq = m.enq ++ [t]) ∧
    (∀ (m : Machine V) (i : Nat) (t : Task V) (rest : List (Task V)),
      m.pool._pool[i]? = some Worker.waiting → m.pool._tasks = t :: rest →
      ∃ m1, fetch m i = some m1 ∧ m1.pool._tasks = rest ∧
        m1.pool._pool = m.pool._pool.set i (Worker.holding t) ∧ m1.deq = m.deq ++ [t]) ∧
    (∀ m : Machine V, Reachable m → m.enq = m.deq ++ m.pool._tasks) ∧
    (∀ m : Machine V, Reachable m → m.pool._pool.length ≤ 1 →
      m.deq = m.fin ++ held m.pool._pool ∧
      m.enq = m.fin ++ held m.pool._pool ++ m.pool._tasks) := by
  refine ⟨?_, ?_, ?_, ?_, ?_, ?_⟩
  · intro A m f args hr
    rw [commit_running m f args hr]
    rfl
  · intro m task hr
    simp [commit2, emplace, hr]
  · intro m m1 k hs
    have h := step_sound hs
    cases h with
    | enqueue _ t alive hk => exact ⟨t, hk, rfl, rfl⟩
  · intro m i t rest hw hq
    exact ⟨_, fetch_pop m i t rest hw hq, rfl, rfl, rfl⟩
  · intro m hm
    exact (reachable_inv m hm).2.2.2.1
  · intro m hm hl
    obtain ⟨_, _, _, h1, _, h3⟩ := reachable_inv m hm
    exact ⟨h3 hl, by rw [h1, h3 hl]⟩

/-- Three submissions to the pool of `threadpool(1)`, interleaved with the
work of its worker: the tasks complete in the order they were enqueued. -/
theorem queue_is_fifo_witness :
    ∃ m : Machine Nat,
      steps (Machine.ready Nat 1)
        [Action.commit (fun _ => Outcome.returned 10), Action.enqueue 0,
          Action.commit2 (fun _ => Outcome.returned ()), Action.fetch 0, Action.enqueue 0,
          Action.commit (fun _ => Outcome.returned 30), Action.exec 0, Action.enqueue 0,
          Action.back 0, Action.fetch 0, Action.exec 0, Action.back 0, Action.fetch 0] = some m ∧
      m.pool._pool.length ≤ 1 ∧ m.enq.length = 3 ∧ m.fin.length = 2 ∧
      m.enq = m.fin ++ held m.pool._pool ++ m.pool._tasks := by
  have hm : ∃ m : Machine Nat,
      steps (Machine.ready Nat 1)
        [Action.commit (fun _ => Outcome.returned 10), Action.enqueue 0,
          Action.commit2 (fun _ => Outcome.returned ()), Action.fetch 0, Action.enqueue 0,
          Action.commit (fun _ => Outcome.returned 30), Action.exec 0, Action.enqueue 0,
          Action.back 0, Action.fetch 0, Action.exec 0, Action.back 0, Action.fetch 0] = some m ∧
      m.pool._pool.length ≤ 1 ∧ m.enq.length = 3 ∧ m.fin.length = 2 :=
    ⟨_, rfl, by decide, rfl, rfl⟩
  obtain ⟨m, e, hl, h3, h2⟩ := hm
  exact ⟨m, e, hl, h3, h2,
    (queue_is_fifo.2.2.2.2.2 m (reachable_steps _ m _ (ready_reachable Nat 1) e) hl).2⟩

/-- C8, as the code has it: when the destructor body has returned, the pool is
stopped and every worker has returned from its thread function, but the
threads stay in `_pool`: `thrCount()` is still the number of workers the
constructor started, `min _initSize THREADPOOL_MAX_NUM`, and is `0` only for a
pool constructed with size `0`. -/
theorem thrCount_after_shutdown {V : Type} (m : Machine V) (h : Reachable m)
    (hd : m.dtor = Dtor.done) :
    m.pool._run = false ∧ AllExited m ∧
    m.pool.thrCount = ((min m.pool._initSize THREADPOOL_MAX_NUM : Nat) : Int) ∧
    (m.pool.thrCount = 0 ↔ m.pool._initSize = 0) := by
  obtain ⟨⟨_, hn, _⟩, _, ⟨s1, s2, _, s4⟩, _⟩ := reachable_inv m h
  have hne : m.dtor ≠ Dtor.idle := by simp [hd]
  have hc : m.ctor = Ctor.done := s2 hne
  simp only [hc] at hn
  simp only [hd] at s4
  have hrun : m.pool._run = false := by
    cases hr : m.pool._run with
    | false => rfl
    | true => exact absurd (s1.mpr hr) hne
  refine ⟨hrun, s4, ?_, ?_⟩
  · simp only [threadpool.thrCount, hn]
  · simp only [threadpool.thrCount, hn, THREADPOOL_MAX_NUM]
    omega

/-- The pool of `threadpool(4)` destroyed with nothing submitted: the
destructor has returned and `thrCount()` is `4`. -/
theorem thrCount_after_shutdown_witness :
    ∃ m : Machine Nat,
      steps (Machine.ready Nat 4)
        [Action.stop, Action.fetch 3, Action.fetch 0, Action.fetch 2, Action.join,
          Action.fetch 1, Action.join, Action.join, Action.join, Action.dtorReturn] = some m ∧
      m.dtor = Dtor.done ∧ m.pool._initSize = 4 ∧ AllExited m ∧ m.pool.thrCount = 4 := by
  have hm : ∃ m : Machine Nat,
      steps (Machine.ready Nat 4)
        [Action.stop, Action.fetch 3, Action.fetch 0, Action.fetch 2, Action.join,
          Action.fetch 1, Action.join, Action.join, Action.join, Action.dtorReturn] = some m ∧
      m.dtor = Dtor.done ∧ m.pool._initSize = 4 := ⟨_, rfl, rfl, rfl⟩
  obtain ⟨m, e, hd, hi⟩ := hm
  have h := thrCount_after_shutdown m (reachable_steps _ m _ (ready_reachable Nat 4) e) hd
  refine ⟨m, e, hd, hi, h.2.1, ?_⟩
  rw [h.2.2.1, hi]
  decide

/-- C8 as stated fails: `threadpool(4)` is constructed, one task is submitted
and executed, and the destructor sets `_run` to false and joins the four
workers; after it has returned `thrCount()` is `4`, not `0`. -/
theorem thrCount_not_zero_after_shutdown :
    ∃ m : Machine Nat,
      steps (Machine.init Nat 4)
        [Action.ctorSpawn, Action.ctorCount, Action.ctorSpawn, Action.ctorCount,
          Action.ctorSpawn, Action.ctorCount, Action.ctorSpawn, Action.ctorCount,
          Action.ctorReturn,
          Action.commit (fun _ => Outcome.returned 7), Action.enqueue 0,
          Action.fetch 2, Action.exec 2, Action.back 2,
          Action.stop, Action.fetch 0, Action.fetch 1, Action.fetch 2, Action.fetch 3,
          Action.join, Action.join, Action.join, Action.join, Action.dtorReturn] = some m ∧
      m.dtor = Dtor.done ∧
      m.pool._pool = [Worker.exited, Worker.exited, Worker.exited, Worker.exited] ∧
      m.futures = [Cell.ready (Outcome.returned 7)] ∧
      m.pool.thrCount = 4 :=
  ⟨_, rfl, rfl, rfl, rfl, rfl⟩

/-- C9: at a quiescent point, where the constructor has returned and no worker
is between dequeuing a task and re-incrementing the counter, `idlCount()` lies
between `0` and `thrCount()` (it equals `thrCount()`); a fetch step that takes
a task lowers the counter by one, the return to the wait raises it by one, and
a complete cycle of fetch, execute and return leaves it as it was. -/
theorem idle_within_thrCount {V : Type} (m : Machine V) (h : Reachable m) (hq : Quiescent m) :
    0 ≤ m.pool.idlCount ∧ m.pool.idlCount ≤ m.pool.thrCount ∧
    m.pool.idlCount = m.pool.thrCount ∧
    (∀ (i : Nat) (m1 : Machine V) (t : Task V), fetch m i = some m1 →
      m1.pool._pool[i]? = some (Worker.holding t) → m1.pool.idlCount = m.pool.idlCount - 1) ∧
    (∀ (m0 : Machine V) (i : Nat) (m1 : Machine V), back m0 i = some m1 →
      m1.pool.idlCount = m0.pool.idlCount + 1) ∧
    (∀ (i : Nat) (m1 : Machine V),
      steps m [Action.fetch i, Action.exec i, Action.back i] = some m1 →
      m1.pool.idlCount = m.pool.idlCount ∧ Quiescent m1) := by
  obtain ⟨_, hi, _, _⟩ := reachable_inv m h
  have he : m.pool.idlCount = m.pool.thrCount := by
    unfold IdleInv at hi
    simp only [threadpool.idlCount, threadpool.thrCount, hi, hq.1, Ctor.uncounted,
      credits_all_one _ hq.2]
    ring
  have hback : ∀ (m0 : Machine V) (i : Nat) (m1 : Machine V), back m0 i = some m1 →
      m1.pool.idlCount = m0.pool.idlCount + 1 := by
    intro m0 i m1 hb
    unfold back at hb
    split at hb
    · cases hb
      rfl
    · exact absurd hb (by simp)
  refine ⟨?_, le_of_eq he, he, ?_, hback, ?_⟩
  · rw [he]
    simp [threadpool.thrCount]
  · intro i m1 t hf hw1
    unfold fetch at hf
    split at hf
    · rename_i hw
      split at hf
      · exact absurd hf (by simp)
      · split at hf
        · cases hf
          have hlt : i < m.pool._pool.length := by
            by_contra hx
            rw [List.getElem?_eq_none (Nat.le_of_not_lt hx)] at hw
            exact absurd hw (by simp)
          simp [setWorker, hlt] at hw1
        · split at hf
          · exact absurd hf (by simp)
          · cases hf
            rfl
    · exact absurd hf (by simp)
  · intro i m1 hs
    simp only [steps] at hs
    cases h1 : step m (Action.fetch i) with
    | none => simp [h1] at hs
    | some a1 =>
      simp only [h1] at hs
      cases h2 : step a1 (Action.exec i) with
      | none => simp [h2] at hs
      | some a2 =>
        simp only [h2] at hs
        cases h3 : step a2 (Action.back i) with
        | none => simp [h3] at hs
        | some a3 =>
          simp only [h3, Option.some.injEq] at hs
          subst hs
          have s1 := step_sound h1
          have s2 := step_sound h2
          have s3 := step_sound h3
          cases s1 with
          | fetchExit _ _ hw hr hq1 =>
            cases s2 with
            | execReturn _ t futures _ hw2 hi2 =>
              have hlt : i < m.pool._pool.length := by
                by_contra hx
                rw [List.getElem?_eq_none (Nat.le_of_not_lt hx)] at hw
                exact absurd hw (by simp)
              simp [setWorker, hlt] at hw2
            | execThrow _ t _ hw2 hi2 =>
              have hlt : i < m.pool._pool.length := by
                by_contra hx
                rw [List.getElem?_eq_none (Nat.le_of_not_lt hx)] at hw
                exact absurd hw (by simp)
              simp [setWorker, hlt] at hw2
          | fetchPop _ t rest _ hw hq1 =>
            cases s2 with
            | execReturn _ t2 futures _ hw2 hi2 =>
              cases s3 with
              | back _ _ hw3 =>
                refine ⟨?_, hq.1, ?_⟩
                · simp only [threadpool.idlCount, setWorker]
                  ring
                · intro w hw4
                  simp only [setWorker, List.set_set] at hw4
                  rcases mem_of_mem_set _ _ _ _ hw4 with e | e
                  · rw [e]
                    rfl
                  · exact hq.2 w e
            | execThrow _ t2 _ hw2 hi2 =>
              cases s3 with
              | back _ alive3 hw3 => simp at alive3

/-- The pool of `threadpool(3)` with one task queued is quiescent, and the
cycle of worker 1 leaves the counter at `3`. -/
theorem idle_within_thrCount_witness :
    ∃ m m1 : Machine Nat,
      steps (Machine.ready Nat 3)
        [Action.commit (fun _ => Outcome.returned 1), Action.enqueue 0] = some m ∧
      Quiescent m ∧ m.pool.thrCount = 3 ∧
      steps m [Action.fetch 1, Action.exec 1, Action.back 1] = some m1 ∧
      m.pool.idlCount = 3 ∧ m1.pool.idlCount = 3 := by
  have hm : ∃ m m1 : Machine Nat,
      steps (Machine.ready Nat 3)
        [Action.commit (fun _ => Outcome.returned 1), Action.enqueue 0] = some m ∧
      Quiescent m ∧ m.pool.thrCount = 3 ∧
      steps m [Action.fetch 1, Action.exec 1, Action.back 1] = some m1 := by
    refine ⟨_, _, rfl, ⟨rfl, ?_⟩, rfl, rfl⟩
    intro w hw
    have hw1 : w ∈ [Worker.waiting, Worker.waiting, Worker.waiting] := hw
    simp only [List.mem_cons, List.mem_singleton, List.not_mem_nil, or_false, or_self] at hw1
    rw [hw1]
    rfl
  obtain ⟨m, m1, e, hq, h3, hc⟩ := hm
  have h := idle_within_thrCount m (reachable_steps _ m _ (ready_reachable Nat 3) e) hq
  have e1 : m.pool.idlCount = 3 := by rw [h.2.2.1, h3]
  exact ⟨m, m1, e, hq, h3, hc, e1, by rw [(h.2.2.2.2.2 1 m1 hc).1, e1]⟩

/-- C10: `idlCount()` is never negative, in any state reached by any
interleaving of the steps of the constructor, of submissions, of the workers
and of the destructor; while the constructor is still in `addThread` no worker
can take a task, so no decrement comes before the increment that accounts for
the worker. -/
theorem idlCount_nonneg {V : Type} (m : Machine V) (h : Reachable m) :
    0 ≤ m.pool.idlCount ∧
    (m.ctor ≠ Ctor.done → ∀ i, fetch m i = none) := by
  obtain ⟨⟨_, hn, he⟩, hi, _, _⟩ := reachable_inv m h
  unfold IdleInv at hi
  constructor
  · simp only [threadpool.idlCount, hi]
    cases hc : m.ctor with
    | loop r =>
      have := (credits_bounds m.pool._pool).1
      simp only [Ctor.uncounted]
      omega
    | spawned r =>
      have he1 := he (by simp [hc])
      have hall : ∀ w ∈ m.pool._pool, credit w = 1 := by
        intro w hw
        rw [he1.2.2.2.1 w hw]
        rfl
      simp only [hc] at hn
      rw [credits_all_one _ hall]
      simp only [Ctor.uncounted]
      omega
    | done =>
      have := (credits_bounds m.pool._pool).1
      simp only [Ctor.uncounted]
      omega
  · intro hc i
    have he1 := he hc
    unfold fetch
    split
    · simp [he1.1, he1.2.1]
    · rfl

/-- Between the start of the first worker and the increment that accounts for
it the counter is `0`, and the worker cannot fetch. -/
theorem idlCount_nonneg_witness :
    ∃ m : Machine Nat,
      steps (Machine.init Nat 2) [Action.ctorSpawn] = some m ∧
      m.pool.thrCount = 1 ∧ m.pool.idlCount = 0 ∧ 0 ≤ m.pool.idlCount ∧ fetch m 0 = none := by
  have hm : ∃ m : Machine Nat,
      steps (Machine.init Nat 2) [Action.ctorSpawn] = some m ∧
      m.pool.thrCount = 1 ∧ m.pool.idlCount = 0 ∧ m.ctor ≠ Ctor.done := by
    refine ⟨_, rfl, rfl, rfl, ?_⟩
    intro hc
    cases hc
  obtain ⟨m, e, h1, h0, hc⟩ := hm
  have h := idlCount_nonneg m ⟨2, [Action.ctorSpawn], e⟩
  exact ⟨m, e, h1, h0, h.1, h.2 hc 0⟩


end ThreadPool
